import Mathlib

/-!
# ffbinaries: resolve, fetch and extract a platform build

A shallow embedding of `api.go`.  Every Go function of the file is a Lean
function of the same name.  The outside world is split in two:

* `Env` holds what the code can only observe: the host OS (`runtime.GOOS`),
  the answers of `http.Get` and the requests it sends for a URL string, the
  JSON and ZIP decoders, the working directory, and which paths refuse
  creation, writing, a change of mode or removal;
* `State` holds what the code changes: the files on disk, a trace of the
  effects it performed (requests sent, handles opened and closed, chmod,
  remove), and the bytes written by `io.Copy`.

Go's `(string, error)` results are pairs `String × GoError`, where `none` is
`nil`.  `defer` is modelled by an explicit stack of deferred calls which is
run, most recent first, when the function returns.

Paths follow the Unix rules of `path/filepath` (separator `/`).  The file
system is keyed by the path string handed to the system call; links between
files are not modelled.
-/

set_option autoImplicit false

namespace Ffbinaries

/-! ## Data model -/

/-- Go's `error`: `none` is `nil`, `some msg` is an error whose text is `msg`. -/
abbrev GoError := Option String

/-- A Go `(string, error)` result. -/
abbrev Result := String × GoError

def APIURL : String := "https://ffbinaries.com/api/v1/version/"

def windows : String := "windows-64"
def linux : String := "linux-64"
def darwin : String := "osx-64"

structure Binaries where
  FFmpeg : String
  FFprobe : String
  FFplay : String
  deriving DecidableEq, Repr

/-- The decoded catalog; the Go map `Bin` is an association list read with
`List.lookup`. -/
structure Response where
  Version : String
  Permalink : String
  Bin : List (String × Binaries)
  deriving DecidableEq, Repr

/-- What an `io.Reader` delivers when read to the end: the bytes, then either
EOF (`err = none`) or a read error. -/
structure Reader where
  data : List Nat
  err : GoError
  deriving DecidableEq, Repr

/-- An `*http.Response` as far as the code looks at it. -/
structure HttpResponse where
  StatusCode : Nat
  Status : String
  Body : Reader
  deriving DecidableEq, Repr

def StatusOK : Nat := 200

/-- One `*zip.File` of an opened archive: its name, whether `f.Open()` fails,
and what its reader delivers. -/
structure ZipFile where
  Name : String
  openErr : GoError
  content : Reader
  deriving DecidableEq, Repr

/-- A regular file on disk: its bytes and its permission bits. -/
structure FileNode where
  data : List Nat
  perm : Nat
  deriving DecidableEq, Repr

/-- The observable, unchanging part of the outside world. -/
structure Env where
  /-- The value of `runtime.GOOS`. -/
  GOOS : String
  /-- The answer of `http.Get url`: a transport error or a response -/
  httpGet : String → Except String HttpResponse
  /-- The requests that `http.Get url` sends, in order: none when the URL
  string does not parse, the URL in its escaped form otherwise, and one more
  for every redirect that the client follows. -/
  httpSent : String → List String
  /-- The result of `json.Unmarshal` into a fresh `Response`. -/
  jsonUnmarshal : List Nat → Except String Response
  /-- The result of `os.Getwd`. -/
  getwd : Except String String
  /-- The paths on which `os.Create` fails, with the error -/
  createErr : String → GoError
  /-- The paths on which writing fails, with the error -/
  writeErr : String → GoError
  /-- The paths on which `os.Chmod` is refused, with the error -/
  chmodErr : String → GoError
  /-- The paths on which `os.Remove` is refused, with the error -/
  removeErr : String → GoError
  /-- The ZIP directory decoder behind `zip.OpenReader` -/
  zipDecode : List Nat → Except String (List ZipFile)
  /-- The mode a newly created file receives (`0666` minus the umask) -/
  createMode : Nat

/-- A resource that must be closed after use. -/
inductive Handle where
  | archive (path : String)
  | file (path : String)
  | entry (name : String)
  | body (url : String)
  deriving DecidableEq, Repr

/-- An effect performed by the code. -/
inductive Event where
  | httpGet (url : String)
  | opened (h : Handle)
  | closed (h : Handle)
  | chmod (path : String) (mode : Nat)
  | remove (path : String)
  deriving DecidableEq, Repr

abbrev FS := String → Option FileNode

structure State where
  fs : FS
  trace : List Event
  /-- The bytes that `io.Copy` has written, each with the path of the file
  it wrote to, in order. -/
  written : List (String × List Nat)

/-- A call registered with `defer`. -/
inductive Deferred where
  | close (h : Handle)
  | chmod (path : String) (mode : Nat)
  | remove (path : String)
  deriving DecidableEq, Repr

/-! ## System calls -/

def State.log (s : State) (e : Event) : State :=
  { s with trace := s.trace ++ [e] }

/-- Logs the requests that one call of `http.Get` sends. -/
def State.logSent (s : State) (urls : List String) : State :=
  { s with trace := s.trace ++ urls.map Event.httpGet }

def FS.set (fs : FS) (p : String) (n : Option FileNode) : FS :=
  fun q => if q = p then n else fs q

/-- The mode of the file that `os.Create` leaves at `p`: an existing file
keeps its mode, a new one gets the creation mode. -/
def createPerm (env : Env) (p : String) (s : State) : Nat :=
  match s.fs p with
  | some old => old.perm
  | none => env.createMode

/-- Go's `os.Create`: fails on the empty path and where the environment refuses;
otherwise truncates an existing file or creates an empty one, and hands out
an open file. -/
def osCreate (env : Env) (p : String) (s : State) : GoError × State :=
  if p = "" then (some "open : no such file or directory", s)
  else match env.createErr p with
    | some e => (some e, s)
    | none =>
      (none, { s with fs := s.fs.set p (some { data := [], perm := createPerm env p s }),
                      trace := s.trace ++ [Event.opened (Handle.file p)] })

/-- Go's `io.Copy(file, src)` onto the open file at `p`: a write error leaves the
file as it is; otherwise the delivered bytes land in the file and the
reader's own error, if any, is the result. -/
def ioCopy (env : Env) (p : String) (src : Reader) (s : State) : GoError × State :=
  match env.writeErr p with
  | some e => (some e, s)
  | none =>
    match s.fs p with
    | some old =>
      (src.err, { s with fs := s.fs.set p (some { data := src.data, perm := old.perm }),
                         written := s.written ++ [(p, src.data)] })
    | none => (src.err, s)

/-- Go's `os.Chmod`; its error is never looked at by the code.  It fails,
changing nothing, where the environment refuses, on the empty path and on a
missing file. -/
def osChmod (env : Env) (p : String) (mode : Nat) (s : State) : State :=
  match env.chmodErr p with
  | some _ => s
  | none =>
    if p = "" then s
    else match s.fs p with
      | some old => { s with fs := s.fs.set p (some { data := old.data, perm := mode }),
                             trace := s.trace ++ [Event.chmod p mode] }
      | none => s

/-- Go's `os.Remove`; its error is never looked at by the code.  It fails,
changing nothing, where the environment refuses and on a missing file. -/
def osRemove (env : Env) (p : String) (s : State) : State :=
  match env.removeErr p with
  | some _ => s
  | none =>
    match s.fs p with
    | some _ => { s with fs := s.fs.set p none, trace := s.trace ++ [Event.remove p] }
    | none => s

/-- Go's `zip.OpenReader`: the file must exist and decode as a ZIP archive. -/
def zipOpenReader (env : Env) (file : String) (s : State) : Except String (List ZipFile) × State :=
  match s.fs file with
  | none => (Except.error ("open " ++ file ++ ": no such file or directory"), s)
  | some node =>
    match env.zipDecode node.data with
    | Except.error e => (Except.error e, s)
    | Except.ok files => (Except.ok files, s.log (Event.opened (Handle.archive file)))

def runDeferred1 (env : Env) (d : Deferred) (s : State) : State :=
  match d with
  | Deferred.close h => s.log (Event.closed h)
  | Deferred.chmod p m => osChmod env p m s
  | Deferred.remove p => osRemove env p s

/-- Runs a defer stack whose head is the call registered last. -/
def runDeferred (env : Env) : List Deferred → State → State
  | [], s => s
  | d :: ds, s => runDeferred env ds (runDeferred1 env d s)

/-! ## `path/filepath` (Unix) -/

/-- Splits a path at every `/`. -/
def splitSep : List Char → List (List Char)
  | [] => [[]]
  | c :: cs =>
    if c = '/' then [] :: splitSep cs
    else match splitSep cs with
      | [] => [[c]]
      | x :: xs => (c :: x) :: xs

/-- One element of the path meets the stack of elements kept so far (top
first): empty and `.` elements vanish, `..` removes the element before it,
is dropped at the root, and is kept at the front of a relative path. -/
def cleanStep (rooted : Bool) (st : List (List Char)) (c : List Char) : List (List Char) :=
  if c = [] ∨ c = ['.'] then st
  else if c = ['.', '.'] then
    match st with
    | [] => if rooted then [] else [c]
    | t :: rest => if t = ['.', '.'] then c :: st else rest
  else c :: st

def isRooted (p : List Char) : Bool :=
  match p with
  | c :: _ => c = '/'
  | [] => false

/-- The elements of the cleaned path, first element first. -/
def cleanComps (p : List Char) : List (List Char) :=
  ((splitSep p).foldl (cleanStep (isRooted p)) []).reverse

def joinSep : List (List Char) → List Char
  | [] => []
  | [c] => c
  | c :: d :: cs => c ++ '/' :: joinSep (d :: cs)

def cleanChars (p : List Char) : List Char :=
  if isRooted p then '/' :: joinSep (cleanComps p)
  else match cleanComps p with
    | [] => ['.']
    | cs => joinSep cs

/-- Go's `filepath.Clean`, on the elements of the path. -/
def Clean (p : String) : String := String.mk (cleanChars p.data)

/-- Go's `filepath.Join` of two elements: leading empty elements are ignored, the
rest is joined with `/` and cleaned; all empty gives the empty string. -/
def filepathJoin (a b : String) : String :=
  if a ≠ "" then Clean (a ++ "/" ++ b)
  else if b ≠ "" then Clean b
  else ""

/-! ## The program -/

def unmarshal (env : Env) (body : Reader) : Except String Response :=
  match body.err with
  | some e => Except.error e
  | none => env.jsonUnmarshal body.data

def osKey (env : Env) : String :=
  if env.GOOS = "windows" then windows
  else if env.GOOS = "darwin" then darwin
  else if env.GOOS = "linux" then linux
  else ""

def getDownloadUrl (env : Env) (product version : String) (s : State) : Result × State :=
  if product ≠ "ffmpeg" ∧ product ≠ "ffprobe" then
    (("", some "invalid product, must be ffmpeg or ffprobe"), s)
  else
    let version := if version = "" then "latest" else version
    let fullurl := APIURL ++ version
    let s1 := s.logSent (env.httpSent fullurl)
    match env.httpGet fullurl with
    | Except.error e => (("", some e), s1)
    | Except.ok resp =>
      let s2 := s1.log (Event.opened (Handle.body fullurl))
      if resp.StatusCode ≠ StatusOK then
        (("", some ("bad status: " ++ resp.Status)), s2)
      else
        match unmarshal env resp.Body with
        | Except.error e => (("", some e), s2)
        | Except.ok body =>
          let os := osKey env
          if os = "" then (("", some "os not found"), s2)
          else
            match body.Bin.lookup os with
            | none => (("", some ("bin not found for OS " ++ os)), s2)
            | some bin =>
              let download :=
                if product = "ffmpeg" then bin.FFmpeg
                else if product = "ffplay" then bin.FFplay
                else if product = "ffprobe" then bin.FFprobe
                else ""
              if download ≠ "" then ((download, none), s2)
              else (("", some ("unable to found " ++ product ++ " for " ++ os)), s2)

def downloadZip (env : Env) (url product dstPath : String) (s : State) : Result × State :=
  let dir : Except String String := if dstPath = "" then env.getwd else Except.ok dstPath
  match dir with
  | Except.error e => (("", some e), s)
  | Except.ok dstDir =>
    let dstPath := filepathJoin dstDir (product ++ ".zip")
    match osCreate env dstPath s with
    | (some e, s1) => (("", some e), s1)
    | (none, s1) =>
      let d1 := [Deferred.close (Handle.file dstPath)]
      let s2 := s1.logSent (env.httpSent url)
      match env.httpGet url with
      | Except.error e => (("", some e), runDeferred env d1 s2)
      | Except.ok resp =>
        let s3 := s2.log (Event.opened (Handle.body url))
        let d2 := Deferred.close (Handle.body url) :: d1
        if resp.StatusCode ≠ StatusOK then
          (("", some ("bad status: " ++ resp.Status)), runDeferred env d2 s3)
        else
          match ioCopy env dstPath resp.Body s3 with
          | (some e, s4) => (("", some e), runDeferred env d2 s4)
          | (none, s4) => ((dstPath, none), runDeferred env d2 s4)

/-- The body of the `for _, f := range archive.File` loop of `unzipProduct`
for the entry `f`, after `dst = filepath.Join(dstPath, f.Name)`: create the
file, open the entry, copy.  It returns the error, if any, and the grown
defer stack. -/
def unzipEntry (env : Env) (dst : String) (f : ZipFile) (ds : List Deferred) (s : State) :
    GoError × List Deferred × State :=
  match osCreate env dst s with
  | (some e, s1) => (some e, ds, s1)
  | (none, s1) =>
    let ds1 := Deferred.close (Handle.file dst) :: ds
    match f.openErr with
    | some e => (some e, ds1, s1)
    | none =>
      let s2 := s1.log (Event.opened (Handle.entry f.Name))
      let ds2 := Deferred.close (Handle.entry f.Name) :: ds1
      match ioCopy env dst f.content s2 with
      | (some e, s3) => (some e, ds2, s3)
      | (none, s3) => (none, ds2, s3)

/-- The `for _, f := range archive.File` loop of `unzipProduct`.  It carries
the variable `dst` and the defer stack, and stops at the first error. -/
def unzipLoop (env : Env) (dstPath : String) :
    List ZipFile → String → List Deferred → State → GoError × String × List Deferred × State
  | [], dst, ds, s => (none, dst, ds, s)
  | f :: rest, _, ds, s =>
    let dst := filepathJoin dstPath f.Name
    match unzipEntry env dst f ds s with
    | (some e, ds1, s1) => (some e, dst, ds1, s1)
    | (none, ds1, s1) => unzipLoop env dstPath rest dst ds1 s1

def unzipProduct (env : Env) (file dstPath : String) (s : State) : Result × State :=
  match zipOpenReader env file s with
  | (Except.error e, s0) => (("", some e), s0)
  | (Except.ok archive, s0) =>
    match unzipLoop env dstPath archive "" [] s0 with
    | (some e, _, ds, s1) => (("", some e), runDeferred env ds s1)
    | (none, dst, ds, s1) => ((dst, none), runDeferred env (Deferred.chmod dst 0o700 :: ds) s1)

def Download (env : Env) (product version dstPath : String) (s : State) : Result × State :=
  match getDownloadUrl env product version s with
  | ((_, some _), s1) => (("", none), s1)
  | ((url, none), s1) =>
    match downloadZip env url product dstPath s1 with
    | ((_, some _), s2) => (("", none), s2)
    | ((zip, none), s2) =>
      match unzipProduct env zip dstPath s2 with
      | (r, s3) => (r, runDeferred env [Deferred.remove zip] s3)

/-! ## Observations on traces -/

/-- The URLs requested over the network, in order. -/
def requests : List Event → List String
  | [] => []
  | Event.httpGet u :: es => u :: requests es
  | _ :: es => requests es

/-- The `os.Chmod` calls that took effect, in order. -/
def chmods : List Event → List (String × Nat)
  | [] => []
  | Event.chmod p m :: es => (p, m) :: chmods es
  | _ :: es => chmods es

/-- The files opened for writing by `os.Create`, in order. -/
def created : List Event → List String
  | [] => []
  | Event.opened (Handle.file p) :: es => p :: created es
  | _ :: es => created es

/-- A plain file name: not empty, without separator, neither `.` nor `..`. -/
def plainName (n : String) : Prop :=
  n.data ≠ [] ∧ '/' ∉ n.data ∧ n.data ≠ ['.'] ∧ n.data ≠ ['.', '.']

instance (n : String) : Decidable (plainName n) := by
  unfold plainName
  infer_instance

/-- An entry name that stays below the directory it is joined to: no `..`
element, and not rooted when the directory is the empty string. -/
def localName (dstPath name : String) : Prop :=
  ['.', '.'] ∉ splitSep name.data ∧ (dstPath = "" → isRooted name.data = false)

instance (dstPath name : String) : Decidable (localName dstPath name) := by
  unfold localName
  infer_instance

/-! ## Path containment -/

/-- An element that `Clean` keeps when no `..` is around: neither empty nor `.`. -/
def keptElem (c : List Char) : Bool := decide (c ≠ [] ∧ c ≠ ['.'])

/-- The elements of the cleaned form of a path. -/
def pathComps (p : String) : List (List Char) := cleanComps p.data

/-- Lexical containment: `path` names `dir` itself or something below it.
The empty `dir` is the current directory. -/
def inside (dir path : String) : Prop :=
  isRooted path.data = isRooted dir.data ∧
  (pathComps path).take (pathComps dir).length = pathComps dir ∧
  ['.', '.'] ∉ (pathComps path).drop (pathComps dir).length

instance (dir path : String) : Decidable (inside dir path) := by
  unfold inside
  infer_instance

/-- The shape of a cleaning stack (top first): kept elements above a block
of `..`, which is empty for a rooted path. -/
def StackNF (r : Bool) (st : List (List Char)) : Prop :=
  ∃ (k : Nat) (reals : List (List Char)),
    st = reals ++ List.replicate k ['.', '.'] ∧ (r = true → k = 0) ∧
    ∀ c ∈ reals, c ≠ [] ∧ c ≠ ['.'] ∧ c ≠ ['.', '.']

/-! ## Sample worlds -/

def sampleCatalog : Response :=
  { Version := "6.1", Permalink := "",
    Bin := [("linux-64", { FFmpeg := "http://x/ffmpeg.zip", FFprobe := "", FFplay := "" })] }

def ok200 : HttpResponse :=
  { StatusCode := 200, Status := "200 OK", Body := { data := [80, 75], err := none } }

def unavailable503 : HttpResponse :=
  { StatusCode := 503, Status := "503 Service Unavailable", Body := { data := [], err := none } }

def notFound404 : HttpResponse :=
  { StatusCode := 404, Status := "404 Not Found", Body := { data := [], err := none } }

/-- A world on host `goos` whose catalog endpoint answers `catalog` (decoding
to `sampleCatalog`), whose artifact URL answers `artifact`, and in which every
downloaded artifact decodes to the archive `files`. -/
def sampleEnv (goos : String) (catalog artifact : HttpResponse) (files : List ZipFile) : Env :=
  { GOOS := goos
    httpGet := fun url => if url = "http://x/ffmpeg.zip" then Except.ok artifact else Except.ok catalog
    httpSent := fun url => [url]
    jsonUnmarshal := fun _ => Except.ok sampleCatalog
    getwd := Except.ok "/home/user"
    createErr := fun _ => none
    writeErr := fun _ => none
    chmodErr := fun _ => none
    removeErr := fun _ => none
    zipDecode := fun _ => Except.ok files
    createMode := 0o644 }

/-- A world whose client behaves as the Go client does on three version
arguments: for `%zz` the URL does not parse and nothing is sent, for `a b`
the escaped URL is requested, and for `moved` the catalog redirects once. -/
def clientEnv : Env :=
  { sampleEnv "linux" ok200 ok200 [] with
    httpGet := fun url =>
      if url = APIURL ++ "%zz" then
        Except.error "parse \"https://ffbinaries.com/api/v1/version/%zz\": invalid URL escape \"%zz\""
      else Except.ok ok200
    httpSent := fun url =>
      if url = APIURL ++ "%zz" then []
      else if url = APIURL ++ "a b" then [APIURL ++ "a%20b"]
      else if url = APIURL ++ "moved" then [url, APIURL ++ "latest"]
      else [url] }

def emptyState : State := { fs := fun _ => none, trace := [], written := [] }

/-- A disk that holds only a downloaded artifact at `zip`. -/
def zipState (zip : String) : State :=
  { fs := fun p => if p = zip then some { data := [80, 75], perm := 0o644 } else none,
    trace := [], written := [] }

/-- A disk that holds the downloaded artifact and an older `/tmp/out/tool`
in mode `0666`. -/
def staleState : State :=
  { fs := fun p =>
      if p = "/tmp/out/ffmpeg.zip" then some { data := [80, 75], perm := 0o644 }
      else if p = "/tmp/out/tool" then some { data := [0], perm := 0o666 }
      else none,
    trace := [], written := [] }

/-- The archive of the round trip: one entry `tool`. -/
def toolArchive : List ZipFile :=
  [{ Name := "tool", openErr := none, content := { data := [127, 69, 76, 70], err := none } }]

/-- A world in which every `os.Chmod` is refused, as for files owned by
another user. -/
def refusedEnv : Env :=
  { sampleEnv "linux" ok200 ok200 toolArchive with
    chmodErr := fun p => some ("chmod " ++ p ++ ": operation not permitted") }

/-- An archive whose entry name climbs out of the destination. -/
def slipArchive : List ZipFile :=
  [{ Name := "../evil", openErr := none, content := { data := [1], err := none } }]

/-- An archive whose entry name is rooted. -/
def rootedArchive : List ZipFile :=
  [{ Name := "/etc/evil", openErr := none, content := { data := [1], err := none } }]


/-! # Theorems -/


/-! ## Paths -/

theorem splitSep_ne_nil (l : List Char) : splitSep l ≠ [] := by
  cases l with
  | nil => simp [splitSep]
  | cons c cs =>
    unfold splitSep
    split
    · simp
    · split <;> simp

theorem splitSep_cons_sep (cs : List Char) : splitSep ('/' :: cs) = [] :: splitSep cs := by
  simp [splitSep]

theorem splitSep_cons_other (c : Char) (cs x : List Char) (xs : List (List Char))
    (hc : c ≠ '/') (h : splitSep cs = x :: xs) : splitSep (c :: cs) = (c :: x) :: xs := by
  simp [splitSep, hc, h]

theorem splitSep_append (a b : List Char) :
    splitSep (a ++ '/' :: b) = splitSep a ++ splitSep b := by
  induction a with
  | nil => simp [splitSep]
  | cons c a ih =>
    by_cases hc : c = '/'
    · subst hc
      simp [splitSep_cons_sep, ih]
    · obtain ⟨x, xs, hx⟩ := List.exists_cons_of_ne_nil (splitSep_ne_nil a)
      have h1 : splitSep (a ++ '/' :: b) = x :: (xs ++ splitSep b) := by rw [ih, hx]; rfl
      rw [List.cons_append, splitSep_cons_other c _ x _ hc h1, splitSep_cons_other c a x xs hc hx]
      rfl

theorem splitSep_of_no_sep (c : List Char) (h : '/' ∉ c) : splitSep c = [c] := by
  induction c with
  | nil => rfl
  | cons x xs ih =>
    have hx : x ≠ '/' := fun e => h (by simp [e])
    have hxs : '/' ∉ xs := fun e => h (by simp [e])
    exact splitSep_cons_other x xs xs [] hx (ih hxs)

theorem no_sep_of_mem_splitSep (l : List Char) : ∀ c ∈ splitSep l, '/' ∉ c := by
  induction l with
  | nil => simp [splitSep]
  | cons x xs ih =>
    by_cases hx : x = '/'
    · subst hx
      rw [splitSep_cons_sep]
      intro c hc
      rcases List.mem_cons.1 hc with h | h
      · simp [h]
      · exact ih c h
    · obtain ⟨y, ys, hy⟩ := List.exists_cons_of_ne_nil (splitSep_ne_nil xs)
      rw [splitSep_cons_other x xs y ys hx hy]
      intro c hc
      rcases List.mem_cons.1 hc with h | h
      · subst h
        have hy0 : '/' ∉ y := ih y (by simp [hy])
        intro hm
        rcases List.mem_cons.1 hm with h1 | h1
        · exact hx h1.symm
        · exact hy0 h1
      · exact ih c (by simp [hy, h])

theorem splitSep_joinSep (cs : List (List Char)) (hne : cs ≠ [])
    (h : ∀ c ∈ cs, '/' ∉ c) : splitSep (joinSep cs) = cs := by
  induction cs with
  | nil => exact absurd rfl hne
  | cons c rest ih =>
    cases rest with
    | nil => exact splitSep_of_no_sep c (h c (by simp))
    | cons d ds =>
      have h2 : splitSep (joinSep (d :: ds)) = d :: ds :=
        ih (by simp) (fun x hx => h x (List.mem_cons_of_mem _ hx))
      show splitSep (c ++ '/' :: joinSep (d :: ds)) = c :: d :: ds
      rw [splitSep_append, h2, splitSep_of_no_sep c (h c (by simp))]
      rfl

theorem cleanStep_skip (r : Bool) (st : List (List Char)) (c : List Char)
    (h : c = [] ∨ c = ['.']) : cleanStep r st c = st := by
  simp [cleanStep, h]

theorem cleanStep_keep (r : Bool) (st : List (List Char)) (c : List Char)
    (h1 : c ≠ []) (h2 : c ≠ ['.']) (h3 : c ≠ ['.', '.']) : cleanStep r st c = c :: st := by
  simp [cleanStep, h1, h2, h3]

theorem cleanStep_dotdot_nil (r : Bool) :
    cleanStep r [] ['.', '.'] = if r then [] else [['.', '.']] := by
  simp [cleanStep]

theorem cleanStep_dotdot_cons (r : Bool) (t : List Char) (rest : List (List Char)) :
    cleanStep r (t :: rest) ['.', '.']
      = if t = ['.', '.'] then ['.', '.'] :: t :: rest else rest := by
  simp [cleanStep]

/-- Without `..` elements cleaning only filters. -/
theorem foldl_cleanStep_no_dotdot (r : Bool) (l : List (List Char)) :
    ∀ st, ['.', '.'] ∉ l →
      l.foldl (cleanStep r) st = (l.filter keptElem).reverse ++ st := by
  induction l with
  | nil => intro st _; rfl
  | cons c cs ih =>
    intro st h
    have hc : c ≠ ['.', '.'] := fun e => h (by simp [e])
    have hcs : ['.', '.'] ∉ cs := fun e => h (by simp [e])
    rw [List.foldl_cons, ih _ hcs]
    by_cases hk : c = [] ∨ c = ['.']
    · rw [cleanStep_skip r st c hk]
      have : keptElem c = false := by
        rcases hk with e | e <;> simp [keptElem, e]
      simp [List.filter_cons, this]
    · have h1 : c ≠ [] := fun e => hk (Or.inl e)
      have h2 : c ≠ ['.'] := fun e => hk (Or.inr e)
      rw [cleanStep_keep r st c h1 h2 hc]
      have : keptElem c = true := by simp [keptElem, h1, h2]
      simp [List.filter_cons, this]

theorem StackNF_nil (r : Bool) : StackNF r [] := ⟨0, [], rfl, fun _ => rfl, by simp⟩

theorem StackNF_step (r : Bool) (st : List (List Char)) (c : List Char)
    (h : StackNF r st) : StackNF r (cleanStep r st c) := by
  obtain ⟨k, reals, hst, hk, hreal⟩ := h
  by_cases hs : c = [] ∨ c = ['.']
  · rw [cleanStep_skip r st c hs]
    exact ⟨k, reals, hst, hk, hreal⟩
  · have h1 : c ≠ [] := fun e => hs (Or.inl e)
    have h2 : c ≠ ['.'] := fun e => hs (Or.inr e)
    by_cases hd : c = ['.', '.']
    · subst hd
      cases reals with
      | nil =>
        cases k with
        | zero =>
          simp only [List.nil_append, List.replicate_zero] at hst
          subst hst
          rw [cleanStep_dotdot_nil]
          cases r with
          | true => exact StackNF_nil true
          | false => exact ⟨1, [], rfl, by simp, by simp⟩
        | succ j =>
          have hr : r = false := by
            cases r with
            | true => exact absurd (hk rfl) (by simp)
            | false => rfl
          subst hr
          simp only [List.nil_append, List.replicate_succ] at hst
          subst hst
          rw [cleanStep_dotdot_cons]
          simp only [if_true]
          exact ⟨j + 2, [], by simp [List.replicate_succ], by simp, by simp⟩
      | cons t rest =>
        simp only [List.cons_append] at hst
        subst hst
        rw [cleanStep_dotdot_cons]
        have ht : t ≠ ['.', '.'] := (hreal t (by simp)).2.2
        simp only [ht, if_false]
        exact ⟨k, rest, rfl, hk, fun x hx => hreal x (List.mem_cons_of_mem _ hx)⟩
    · rw [cleanStep_keep r st c h1 h2 hd]
      refine ⟨k, c :: reals, by simp [hst], hk, ?_⟩
      intro x hx
      rcases List.mem_cons.1 hx with e | e
      · subst e
        exact ⟨h1, h2, hd⟩
      · exact hreal x e

theorem StackNF_foldl (r : Bool) (l : List (List Char)) :
    ∀ st, StackNF r st → StackNF r (l.foldl (cleanStep r) st) := by
  induction l with
  | nil => intro st h; exact h
  | cons c cs ih => intro st h; exact ih _ (StackNF_step r st c h)

theorem mem_cleanStep (r : Bool) (st : List (List Char)) (c x : List Char)
    (h : x ∈ cleanStep r st c) : x ∈ st ∨ x = c := by
  unfold cleanStep at h
  split at h
  · exact Or.inl h
  · split at h
    · split at h
      · split at h
        · simp at h
        · right
          simpa using h
      · split at h
        · rcases List.mem_cons.1 h with e | e
          · exact Or.inr e
          · exact Or.inl e
        · exact Or.inl (List.mem_cons_of_mem _ h)
    · rcases List.mem_cons.1 h with e | e
      · exact Or.inr e
      · exact Or.inl e

theorem mem_foldl_cleanStep (r : Bool) (l : List (List Char)) :
    ∀ st x, x ∈ l.foldl (cleanStep r) st → x ∈ st ∨ x ∈ l := by
  induction l with
  | nil => intro st x h; exact Or.inl h
  | cons c cs ih =>
    intro st x h
    rcases ih _ x h with h1 | h1
    · rcases mem_cleanStep r st c x h1 with h2 | h2
      · exact Or.inl h2
      · exact Or.inr (by simp [h2])
    · exact Or.inr (List.mem_cons_of_mem _ h1)

theorem foldl_cleanStep_dots (k : Nat) :
    ∀ j, (List.replicate k ['.', '.']).foldl (cleanStep false) (List.replicate j ['.', '.'])
      = List.replicate (k + j) ['.', '.'] := by
  induction k with
  | zero => intro j; simp
  | succ n ih =>
    intro j
    rw [List.replicate_succ, List.foldl_cons]
    have hstep : cleanStep false (List.replicate j ['.', '.']) ['.', '.']
        = List.replicate (j + 1) ['.', '.'] := by
      cases j with
      | zero => simp [cleanStep_dotdot_nil]
      | succ i =>
        rw [List.replicate_succ, cleanStep_dotdot_cons]
        simp [List.replicate_succ]
    rw [hstep, ih (j + 1)]
    congr 1
    omega

/-- Cleaning the elements of a cleaned path gives them back. -/
theorem foldl_cleanStep_reverse (r : Bool) (st : List (List Char)) (h : StackNF r st) :
    st.reverse.foldl (cleanStep r) [] = st := by
  obtain ⟨k, reals, hst, hk, hreal⟩ := h
  subst hst
  rw [List.reverse_append, List.foldl_append, List.reverse_replicate]
  have hdots : (List.replicate k ['.', '.']).foldl (cleanStep r) []
      = List.replicate k ['.', '.'] := by
    cases r with
    | true => rw [hk rfl]; rfl
    | false => simpa using foldl_cleanStep_dots k 0
  rw [hdots, foldl_cleanStep_no_dotdot]
  · have hf : reals.reverse.filter keptElem = reals.reverse := by
      apply List.filter_eq_self.2
      intro x hx
      have := hreal x (List.mem_reverse.1 hx)
      simp [keptElem, this.1, this.2.1]
    rw [hf, List.reverse_reverse]
  · intro hm
    exact (hreal _ (List.mem_reverse.1 hm)).2.2 rfl

theorem isRooted_joinSep (cs : List (List Char))
    (h : ∀ c ∈ cs, c ≠ [] ∧ '/' ∉ c) : isRooted (joinSep cs) = false := by
  cases cs with
  | nil => rfl
  | cons c rest =>
    have hc := h c (by simp)
    obtain ⟨x, xs, hx⟩ := List.exists_cons_of_ne_nil hc.1
    have hx0 : x ≠ '/' := fun e => hc.2 (by simp [hx, e])
    cases rest with
    | nil => simp [joinSep, hx, isRooted, hx0]
    | cons d ds => simp [joinSep, hx, isRooted, hx0]

theorem cleanComps_facts (p : List Char) :
    StackNF (isRooted p) (cleanComps p).reverse ∧
    ∀ c ∈ cleanComps p, c ≠ [] ∧ '/' ∉ c := by
  have hnf : StackNF (isRooted p) ((splitSep p).foldl (cleanStep (isRooted p)) []) :=
    StackNF_foldl _ _ _ (StackNF_nil _)
  refine ⟨by simpa [cleanComps] using hnf, ?_⟩
  intro c hc
  have hc1 : c ∈ (splitSep p).foldl (cleanStep (isRooted p)) [] := by
    simpa [cleanComps] using hc
  constructor
  · obtain ⟨k, reals, hst, _, hreal⟩ := hnf
    rw [hst] at hc1
    rcases List.mem_append.1 hc1 with h | h
    · exact (hreal c h).1
    · rw [(List.mem_replicate.1 h).2]
      simp
  · rcases mem_foldl_cleanStep _ _ _ _ hc1 with h | h
    · simp at h
    · exact no_sep_of_mem_splitSep p c h

/-- Cleaning is idempotent on the elements and keeps rootedness. -/
theorem cleanChars_idem (p : List Char) :
    isRooted (cleanChars p) = isRooted p ∧ cleanComps (cleanChars p) = cleanComps p := by
  obtain ⟨hnf, hfree⟩ := cleanComps_facts p
  have hre : ∀ r, r = isRooted p →
      (cleanComps p).foldl (cleanStep r) [] = (cleanComps p).reverse := by
    intro r hr
    have := foldl_cleanStep_reverse r (cleanComps p).reverse (hr ▸ hnf)
    simpa using this
  by_cases hr : isRooted p = true
  · have hcc : cleanChars p = '/' :: joinSep (cleanComps p) := by simp [cleanChars, hr]
    have hroot : isRooted (cleanChars p) = true := by rw [hcc]; simp [isRooted]
    refine ⟨by rw [hroot, hr], ?_⟩
    show ((splitSep (cleanChars p)).foldl (cleanStep (isRooted (cleanChars p))) []).reverse
      = cleanComps p
    rw [hroot, hcc, splitSep_cons_sep]
    by_cases hnil : cleanComps p = []
    · rw [hnil]
      simp [joinSep, splitSep, cleanStep]
    · rw [splitSep_joinSep _ hnil (fun c hc => (hfree c hc).2), List.foldl_cons,
        cleanStep_skip true [] [] (Or.inl rfl), hre true hr.symm, List.reverse_reverse]
  · have hr0 : isRooted p = false := by simpa using hr
    by_cases hnil : cleanComps p = []
    · have hcc : cleanChars p = ['.'] := by simp [cleanChars, hr0, hnil]
      rw [hcc, hr0, hnil]
      exact ⟨rfl, rfl⟩
    · have hcc : cleanChars p = joinSep (cleanComps p) := by
        simp only [cleanChars, hr0, Bool.false_eq_true, if_false]
      have hroot : isRooted (cleanChars p) = false := by
        rw [hcc]
        exact isRooted_joinSep _ hfree
      refine ⟨by rw [hroot, hr0], ?_⟩
      show ((splitSep (cleanChars p)).foldl (cleanStep (isRooted (cleanChars p))) []).reverse
        = cleanComps p
      rw [hroot, hcc, splitSep_joinSep _ hnil (fun c hc => (hfree c hc).2),
        hre false hr0.symm, List.reverse_reverse]

theorem pathComps_Clean (x : String) :
    isRooted (Clean x).data = isRooted x.data ∧ pathComps (Clean x) = pathComps x :=
  cleanChars_idem x.data

theorem data_ne_nil {a : String} (h : a ≠ "") : a.data ≠ [] := by
  intro e
  exact h (String.ext e)

theorem isRooted_append (a b : List Char) (h : a ≠ []) : isRooted (a ++ b) = isRooted a := by
  cases a with
  | nil => exact absurd rfl h
  | cons c cs => rfl

/-- The elements of a joined path, for an entry name without `..`. -/
theorem pathComps_join (a n : String) (hnd : ['.', '.'] ∉ splitSep n.data) :
    pathComps (filepathJoin a n) = pathComps a ++ (splitSep n.data).filter keptElem := by
  unfold filepathJoin
  by_cases ha : a = ""
  · subst ha
    by_cases hn : n = ""
    · subst hn
      decide
    · simp only [ne_eq, not_true_eq_false, if_false, hn, not_false_eq_true, if_true]
      rw [(pathComps_Clean n).2]
      show ((splitSep n.data).foldl (cleanStep (isRooted n.data)) []).reverse = _
      rw [foldl_cleanStep_no_dotdot _ _ _ hnd]
      simp [pathComps, cleanComps, splitSep, cleanStep]
  · simp only [ne_eq, ha, not_false_eq_true, if_true]
    rw [(pathComps_Clean _).2]
    have hd : (a ++ "/" ++ n).data = a.data ++ '/' :: n.data := by
      simp [String.data_append]
    show cleanComps (a ++ "/" ++ n).data = cleanComps a.data ++ _
    rw [hd]
    unfold cleanComps
    rw [isRooted_append _ _ (data_ne_nil ha), splitSep_append, List.foldl_append,
      foldl_cleanStep_no_dotdot _ _ _ hnd]
    simp

theorem isRooted_join (a n : String) (hroot : a = "" → isRooted n.data = false) :
    isRooted (filepathJoin a n).data = isRooted a.data := by
  unfold filepathJoin
  by_cases ha : a = ""
  · subst ha
    by_cases hn : n = ""
    · subst hn
      rfl
    · simp only [ne_eq, not_true_eq_false, if_false, hn, not_false_eq_true, if_true]
      rw [(pathComps_Clean n).1, hroot rfl]
      rfl
  · simp only [ne_eq, ha, not_false_eq_true, if_true]
    rw [(pathComps_Clean _).1]
    have hd : (a ++ "/" ++ n).data = a.data ++ '/' :: n.data := by
      simp [String.data_append]
    rw [hd, isRooted_append _ _ (data_ne_nil ha)]


/-! ## Catalog lookup -/

theorem requests_append (a b : List Event) : requests (a ++ b) = requests a ++ requests b := by
  induction a with
  | nil => rfl
  | cons e es ih => cases e <;> simp [requests, ih]

theorem requests_sent (urls : List String) : requests (urls.map Event.httpGet) = urls := by
  induction urls with
  | nil => rfl
  | cons u us ih => simp [requests, ih]

theorem accepted_not_rejected {product : String} (h : product = "ffmpeg" ∨ product = "ffprobe") :
    ¬ (product ≠ "ffmpeg" ∧ product ≠ "ffprobe") := by
  rcases h with h | h <;> simp [h]

theorem getDownloadUrl_invalid (env : Env) (product version : String) (s : State)
    (h1 : product ≠ "ffmpeg") (h2 : product ≠ "ffprobe") :
    getDownloadUrl env product version s
      = (("", some "invalid product, must be ffmpeg or ffprobe"), s) := by
  simp [getDownloadUrl, h1, h2]

theorem message_ne (p k : String) :
    "bin not found for OS " ++ k ≠ "unable to found " ++ p ++ " for " ++ k := by
  intro h
  have hd := congrArg String.data h
  simp [String.data_append] at hd

/-- Once the catalog is decoded and the platform key is known, the result of
`getDownloadUrl` is the outcome of the lookup. -/
theorem getDownloadUrl_decoded (env : Env) (p version : String) (s : State)
    (resp : HttpResponse) (c : Response)
    (hp : p = "ffmpeg" ∨ p = "ffprobe")
    (hget : env.httpGet (APIURL ++ (if version = "" then "latest" else version)) = Except.ok resp)
    (hst : resp.StatusCode = StatusOK)
    (hdec : unmarshal env resp.Body = Except.ok c) :
    (getDownloadUrl env p version s).1 =
      if osKey env = "" then ("", some "os not found")
      else match c.Bin.lookup (osKey env) with
        | none => ("", some ("bin not found for OS " ++ osKey env))
        | some bin =>
          if (if p = "ffmpeg" then bin.FFmpeg else bin.FFprobe) ≠ "" then
            ((if p = "ffmpeg" then bin.FFmpeg else bin.FFprobe), none)
          else ("", some ("unable to found " ++ p ++ " for " ++ osKey env)) := by
  unfold getDownloadUrl
  rw [if_neg (accepted_not_rejected hp)]
  simp only [hget, hst, hdec]
  rcases hp with hp | hp
  · subst hp
    by_cases hos : osKey env = ""
    · simp [hos]
    · simp only [hos, if_false]
      cases hl : c.Bin.lookup (osKey env) with
      | none => simp
      | some bin => by_cases hf : bin.FFmpeg = "" <;> simp [hf]
  · subst hp
    by_cases hos : osKey env = ""
    · simp [hos]
    · simp only [hos, if_false]
      cases hl : c.Bin.lookup (osKey env) with
      | none => simp
      | some bin => by_cases hf : bin.FFprobe = "" <;> simp [hf]

/-! ## Claims on the catalog stage -/

/-- C8: `osKey` maps the host OS `windows` to `windows-64`, `linux` to
`linux-64` and `darwin` to `osx-64`; these three keys are pairwise distinct
and non-empty; every other OS identifier gives the empty string, and
`getDownloadUrl`, once the catalog is fetched and decoded, then fails with
`os not found`. -/
theorem osKey_platform_table (env : Env) (product version : String) (s : State)
    (resp : HttpResponse) (c : Response) :
    (env.GOOS = "windows" → osKey env = windows ∧ windows = "windows-64") ∧
    (env.GOOS = "linux" → osKey env = linux ∧ linux = "linux-64") ∧
    (env.GOOS = "darwin" → osKey env = darwin ∧ darwin = "osx-64") ∧
    (windows ≠ linux ∧ windows ≠ darwin ∧ linux ≠ darwin) ∧
    (windows ≠ "" ∧ linux ≠ "" ∧ darwin ≠ "") ∧
    (env.GOOS ≠ "windows" → env.GOOS ≠ "linux" → env.GOOS ≠ "darwin" →
      osKey env = "" ∧
      ((product = "ffmpeg" ∨ product = "ffprobe") →
        env.httpGet (APIURL ++ (if version = "" then "latest" else version)) = Except.ok resp →
        resp.StatusCode = StatusOK →
        unmarshal env resp.Body = Except.ok c →
        (getDownloadUrl env product version s).1 = ("", some "os not found"))) := by
  refine ⟨?_, ?_, ?_, by decide, by decide, ?_⟩
  · intro h
    simp [osKey, h, windows]
  · intro h
    simp [osKey, h, linux]
  · intro h
    simp [osKey, h, darwin]
  · intro hw hl hd
    have hos : osKey env = "" := by simp [osKey, hw, hl, hd]
    refine ⟨hos, ?_⟩
    intro hp hget hst hdec
    rw [getDownloadUrl_decoded env product version s resp c hp hget hst hdec]
    simp [hos]

theorem osKey_platform_table_witness :
    osKey (sampleEnv "plan9" ok200 ok200 []) = "" ∧
    (getDownloadUrl (sampleEnv "plan9" ok200 ok200 []) "ffmpeg" "" emptyState).1
      = ("", some "os not found") :=
  ⟨((osKey_platform_table (sampleEnv "plan9" ok200 ok200 []) "ffmpeg" "" emptyState ok200
      sampleCatalog).2.2.2.2.2 (by decide) (by decide) (by decide)).1,
   ((osKey_platform_table (sampleEnv "plan9" ok200 ok200 []) "ffmpeg" "" emptyState ok200
      sampleCatalog).2.2.2.2.2 (by decide) (by decide) (by decide)).2
      (Or.inl rfl) rfl rfl rfl⟩

/-- C2: for every product other than `ffmpeg` and `ffprobe` and every version,
`getDownloadUrl` returns an empty URL and a non-nil error and leaves the state
untouched (no request is logged), and `Download` with such a product leaves
the trace and the file system as they were: no request, no file. -/
theorem invalid_product_fails_fast (env : Env) (product version dstPath : String) (s : State)
    (h1 : product ≠ "ffmpeg") (h2 : product ≠ "ffprobe") :
    (getDownloadUrl env product version s).1.1 = "" ∧
    (getDownloadUrl env product version s).1.2 ≠ none ∧
    requests (getDownloadUrl env product version s).2.trace = requests s.trace ∧
    (getDownloadUrl env product version s).2.fs = s.fs ∧
    requests (Download env product version dstPath s).2.trace = requests s.trace ∧
    (Download env product version dstPath s).2.trace = s.trace ∧
    (Download env product version dstPath s).2.fs = s.fs := by
  have hg := getDownloadUrl_invalid env product version s h1 h2
  have hd : (Download env product version dstPath s).2 = s := by
    simp [Download, hg]
  simp [hg, hd]

theorem invalid_product_fails_fast_witness :
    (getDownloadUrl (sampleEnv "linux" ok200 ok200 []) "ffplay" "6.1" emptyState).1.1 = "" ∧
    (getDownloadUrl (sampleEnv "linux" ok200 ok200 []) "ffplay" "6.1" emptyState).1.2 ≠ none ∧
    (Download (sampleEnv "linux" ok200 ok200 []) "ffplay" "6.1" "/tmp/out" emptyState).2.trace = [] :=
  have h := invalid_product_fails_fast (sampleEnv "linux" ok200 ok200 []) "ffplay" "6.1"
    "/tmp/out" emptyState (by decide) (by decide)
  ⟨h.1, h.2.1, h.2.2.2.2.2.1⟩

/-- C9, as stated, fails: the requests issued are those that `http.Get`
sends for the URL string, and the Go client sends none for the version `%zz`
(the URL does not parse), requests `.../a%20b` for the version `a b`, and
sends two requests when the catalog answers with a redirect. -/
theorem catalog_request_not_single :
    requests (getDownloadUrl clientEnv "ffmpeg" "%zz" emptyState).2.trace = [] ∧
    requests (getDownloadUrl clientEnv "ffmpeg" "a b" emptyState).2.trace
      = ["https://ffbinaries.com/api/v1/version/a%20b"] ∧
    requests (getDownloadUrl clientEnv "ffmpeg" "moved" emptyState).2.trace
      = ["https://ffbinaries.com/api/v1/version/moved",
         "https://ffbinaries.com/api/v1/version/latest"] := by
  decide

/-- C9, amended: for every accepted product, `getDownloadUrl` calls
`http.Get` once, on `APIURL` followed by `latest` when the version argument
is empty and by the version argument unchanged otherwise, and the requests
it issues are exactly those that this call sends; when the client sends the
URL string as it is given, that is exactly one request, to that URL. -/
theorem catalog_request_url (env : Env) (product version : String) (s : State)
    (h : product = "ffmpeg" ∨ product = "ffprobe") :
    requests (getDownloadUrl env product version s).2.trace
      = requests s.trace
        ++ env.httpSent (APIURL ++ (if version = "" then "latest" else version)) ∧
    (env.httpSent (APIURL ++ (if version = "" then "latest" else version))
        = [APIURL ++ (if version = "" then "latest" else version)] →
      requests (getDownloadUrl env product version s).2.trace
        = requests s.trace ++ [APIURL ++ (if version = "" then "latest" else version)]) := by
  have key : requests (getDownloadUrl env product version s).2.trace
      = requests s.trace
        ++ env.httpSent (APIURL ++ (if version = "" then "latest" else version)) := by
    unfold getDownloadUrl
    rw [if_neg (accepted_not_rejected h)]
    dsimp only
    generalize APIURL ++ (if version = "" then "latest" else version) = url
    cases env.httpGet url with
    | error e => simp [State.logSent, requests_append, requests_sent]
    | ok resp =>
      dsimp only
      repeat' split
      all_goals simp [State.log, State.logSent, requests_append, requests_sent, requests]
  exact ⟨key, fun hs => by rw [key, hs]⟩

theorem catalog_request_url_witness :
    requests (getDownloadUrl (sampleEnv "linux" ok200 ok200 []) "ffprobe" "" emptyState).2.trace
      = ["https://ffbinaries.com/api/v1/version/latest"] ∧
    requests (getDownloadUrl (sampleEnv "linux" ok200 ok200 []) "ffmpeg" "6.1" emptyState).2.trace
      = ["https://ffbinaries.com/api/v1/version/6.1"] :=
  ⟨(catalog_request_url (sampleEnv "linux" ok200 ok200 []) "ffprobe" "" emptyState
      (Or.inr rfl)).2 rfl,
   (catalog_request_url (sampleEnv "linux" ok200 ok200 []) "ffmpeg" "6.1" emptyState
      (Or.inl rfl)).2 rfl⟩

/-- C3: with the catalog decoded to `c`, platform key `k` and product `p` in
`ffmpeg`, `ffprobe`: if `k` is no key of `c.Bin` the result is the error
`bin not found for OS k`; if `k` is present and the field of `p` is empty the
result is the error `unable to found p for k`; otherwise the result is that
field with a nil error.  The result is never an empty URL with a nil error,
and the two failure messages differ. -/
theorem getDownloadUrl_selection (env : Env) (p version k : String) (s : State)
    (resp : HttpResponse) (c : Response)
    (hp : p = "ffmpeg" ∨ p = "ffprobe")
    (hget : env.httpGet (APIURL ++ (if version = "" then "latest" else version)) = Except.ok resp)
    (hst : resp.StatusCode = StatusOK)
    (hdec : unmarshal env resp.Body = Except.ok c)
    (hk : osKey env = k) (hk0 : k ≠ "") :
    (c.Bin.lookup k = none →
      (getDownloadUrl env p version s).1 = ("", some ("bin not found for OS " ++ k))) ∧
    (∀ bin, c.Bin.lookup k = some bin →
      (if p = "ffmpeg" then bin.FFmpeg else bin.FFprobe) = "" →
      (getDownloadUrl env p version s).1 = ("", some ("unable to found " ++ p ++ " for " ++ k))) ∧
    (∀ bin, c.Bin.lookup k = some bin →
      (if p = "ffmpeg" then bin.FFmpeg else bin.FFprobe) ≠ "" →
      (getDownloadUrl env p version s).1
        = ((if p = "ffmpeg" then bin.FFmpeg else bin.FFprobe), none)) ∧
    (getDownloadUrl env p version s).1 ≠ ("", none) ∧
    "bin not found for OS " ++ k ≠ "unable to found " ++ p ++ " for " ++ k := by
  have hr := getDownloadUrl_decoded env p version s resp c hp hget hst hdec
  rw [hk, if_neg hk0] at hr
  refine ⟨?_, ?_, ?_, ?_, message_ne p k⟩
  · intro hl
    rw [hr, hl]
  · intro bin hl hf
    rw [hr, hl]
    simp [hf]
  · intro bin hl hf
    rw [hr, hl]
    simp [hf]
  · rw [hr]
    cases hl : c.Bin.lookup k with
    | none => simp
    | some bin =>
      by_cases hf : (if p = "ffmpeg" then bin.FFmpeg else bin.FFprobe) = ""
      · simp [hf]
      · simp only [ne_eq, hf, not_false_eq_true, if_true]
        intro h
        exact hf (congrArg Prod.fst h)

theorem getDownloadUrl_selection_witness :
    (getDownloadUrl (sampleEnv "linux" ok200 ok200 []) "ffprobe" "" emptyState).1
      = ("", some "unable to found ffprobe for linux-64") ∧
    (getDownloadUrl (sampleEnv "linux" ok200 ok200 []) "ffprobe" "" emptyState).1 ≠ ("", none) :=
  have h := getDownloadUrl_selection (sampleEnv "linux" ok200 ok200 []) "ffprobe" "" "linux-64"
    emptyState ok200 sampleCatalog (Or.inr rfl) rfl rfl rfl rfl (by decide)
  ⟨h.2.1 { FFmpeg := "http://x/ffmpeg.zip", FFprobe := "", FFplay := "" } rfl rfl, h.2.2.2.1⟩

/-- C1: failing input.  The catalog endpoint answers 503: `getDownloadUrl`
reports `bad status: 503 Service Unavailable`, and `Download` returns the
empty path with a nil error. -/
theorem Download_drops_catalog_error :
    (getDownloadUrl (sampleEnv "linux" unavailable503 ok200 []) "ffmpeg" "" emptyState).1
      = ("", some "bad status: 503 Service Unavailable") ∧
    (Download (sampleEnv "linux" unavailable503 ok200 []) "ffmpeg" "" "/tmp/out" emptyState).1
      = ("", none) := by
  decide

/-! ## System calls and deferred calls -/

theorem chmods_append (a b : List Event) : chmods (a ++ b) = chmods a ++ chmods b := by
  induction a with
  | nil => rfl
  | cons e es ih => cases e <;> simp [chmods, ih]

theorem created_append (a b : List Event) : created (a ++ b) = created a ++ created b := by
  induction a with
  | nil => rfl
  | cons e es ih =>
    cases e with
    | opened h => cases h <;> simp [created, ih]
    | _ => simp [created, ih]

theorem osCreate_fs_other (env : Env) (p q : String) (s : State) (h : q ≠ p) :
    (osCreate env p s).2.fs q = s.fs q := by
  unfold osCreate
  split
  · rfl
  · split
    · rfl
    · simp [FS.set, h]

theorem osCreate_trace (env : Env) (p : String) (s : State) :
    (osCreate env p s).2.trace = s.trace ∨
    (osCreate env p s).2.trace = s.trace ++ [Event.opened (Handle.file p)] := by
  unfold osCreate
  split
  · exact Or.inl rfl
  · split
    · exact Or.inl rfl
    · exact Or.inr rfl

theorem osCreate_ok (env : Env) (p : String) (s : State) (hp : p ≠ "")
    (hc : env.createErr p = none) :
    osCreate env p s = (none,
      { s with fs := s.fs.set p (some { data := [], perm := createPerm env p s }),
               trace := s.trace ++ [Event.opened (Handle.file p)] }) := by
  unfold osCreate
  rw [if_neg hp, hc]

theorem ioCopy_fs_other (env : Env) (p q : String) (src : Reader) (s : State) (h : q ≠ p) :
    (ioCopy env p src s).2.fs q = s.fs q := by
  unfold ioCopy
  split
  · rfl
  · split
    · simp [FS.set, h]
    · rfl

theorem ioCopy_trace (env : Env) (p : String) (src : Reader) (s : State) :
    (ioCopy env p src s).2.trace = s.trace := by
  unfold ioCopy
  split
  · rfl
  · split <;> rfl

theorem runDeferred_closes (env : Env) (cl : List Deferred)
    (hcl : ∀ x ∈ cl, ∃ h, x = Deferred.close h) :
    ∀ s, (runDeferred env cl s).fs = s.fs ∧
      chmods (runDeferred env cl s).trace = chmods s.trace ∧
      created (runDeferred env cl s).trace = created s.trace ∧
      (runDeferred env cl s).written = s.written := by
  induction cl with
  | nil => intro s; exact ⟨rfl, rfl, rfl, rfl⟩
  | cons d ds ih =>
    intro s
    obtain ⟨h, hd⟩ := hcl d (by simp)
    subst hd
    have := ih (fun x hx => hcl x (List.mem_cons_of_mem _ hx)) (s.log (Event.closed h))
    simpa [runDeferred, runDeferred1, State.log, chmods_append, created_append, chmods,
      created] using this

theorem zipOpenReader_ok (env : Env) (file : String) (s : State) (a : List ZipFile)
    (h : (zipOpenReader env file s).1 = Except.ok a) :
    zipOpenReader env file s = (Except.ok a, s.log (Event.opened (Handle.archive file))) := by
  unfold zipOpenReader at h ⊢
  split at h
  · simp at h
  · split at h
    · simp at h
    · rename_i node files hdec
      simp only [Except.ok.injEq] at h
      subst h
      simp [hdec]

/-! ## The extraction loop -/

/-- What one pass of the loop body may touch. -/
theorem unzipEntry_footprint (env : Env) (dst : String) (f : ZipFile) (ds : List Deferred)
    (s : State) :
    (∀ q, q ≠ dst → (unzipEntry env dst f ds s).2.2.fs q = s.fs q) ∧
    (chmods (unzipEntry env dst f ds s).2.2.trace = chmods s.trace) ∧
    (created (unzipEntry env dst f ds s).2.2.trace = created s.trace ∨
      created (unzipEntry env dst f ds s).2.2.trace = created s.trace ++ [dst]) ∧
    (∃ cl, (unzipEntry env dst f ds s).2.1 = cl ++ ds ∧ ∀ x ∈ cl, ∃ h, x = Deferred.close h) := by
  have hfs := osCreate_fs_other env dst
  have htr := osCreate_trace env dst s
  unfold unzipEntry
  cases hc : osCreate env dst s with
  | mk e1 s1 =>
    rw [hc] at htr
    have hfs1 : ∀ q, q ≠ dst → s1.fs q = s.fs q := by
      intro q hq
      have := hfs q s hq
      rwa [hc] at this
    have hch1 : chmods s1.trace = chmods s.trace := by
      rcases htr with h | h <;> simp only at h <;> simp [h, chmods_append, chmods]
    have hcr1 : created s1.trace = created s.trace ∨ created s1.trace = created s.trace ++ [dst] := by
      rcases htr with h | h <;> simp only at h <;> simp [h, created_append, created]
    cases e1 with
    | some e => exact ⟨hfs1, hch1, hcr1, [], rfl, by simp⟩
    | none =>
      dsimp only
      cases f.openErr with
      | some e => exact ⟨hfs1, hch1, hcr1, [Deferred.close (Handle.file dst)], rfl, by simp⟩
      | none =>
        dsimp only
        have hio_fs := ioCopy_fs_other env dst
        have hio_tr := ioCopy_trace env dst f.content (s1.log (Event.opened (Handle.entry f.Name)))
        cases hio : ioCopy env dst f.content (s1.log (Event.opened (Handle.entry f.Name))) with
        | mk e3 s3 =>
          rw [hio] at hio_tr
          simp only [State.log] at hio_tr
          have hfs3 : ∀ q, q ≠ dst → s3.fs q = s.fs q := by
            intro q hq
            have := hio_fs q f.content (s1.log (Event.opened (Handle.entry f.Name))) hq
            rw [hio] at this
            simp only [State.log] at this
            rw [this]
            exact hfs1 q hq
          have hch3 : chmods s3.trace = chmods s.trace := by
            rw [hio_tr, chmods_append, hch1]
            simp [chmods]
          have hcr3 : created s3.trace = created s.trace ∨
              created s3.trace = created s.trace ++ [dst] := by
            rw [hio_tr, created_append]
            simpa [created] using hcr1
          have hcl : ∃ cl, Deferred.close (Handle.entry f.Name) ::
              Deferred.close (Handle.file dst) :: ds = cl ++ ds ∧
              ∀ x ∈ cl, ∃ h, x = Deferred.close h :=
            ⟨[Deferred.close (Handle.entry f.Name), Deferred.close (Handle.file dst)], rfl,
              by simp⟩
          cases e3 with
          | some e => exact ⟨hfs3, hch3, hcr3, hcl⟩
          | none => exact ⟨hfs3, hch3, hcr3, hcl⟩

/-- The loop body when nothing fails. -/
theorem unzipEntry_ok (env : Env) (dst : String) (f : ZipFile) (ds : List Deferred) (s : State)
    (hdst : dst ≠ "") (hc : env.createErr dst = none) (ho : f.openErr = none)
    (hw : env.writeErr dst = none) (hr : f.content.err = none) :
    (unzipEntry env dst f ds s).1 = none ∧
    ((unzipEntry env dst f ds s).2.2.fs dst).map FileNode.data = some f.content.data ∧
    (unzipEntry env dst f ds s).2.2.written = s.written ++ [(dst, f.content.data)] := by
  unfold unzipEntry
  rw [osCreate_ok env dst s hdst hc]
  simp [ho, ioCopy, hw, State.log, FS.set, hr]

theorem unzipLoop_cons_err (env : Env) (dstPath : String) (f : ZipFile) (rest : List ZipFile)
    (d0 : String) (ds ds1 : List Deferred) (s s1 : State) (e : String)
    (h : unzipEntry env (filepathJoin dstPath f.Name) f ds s = (some e, ds1, s1)) :
    unzipLoop env dstPath (f :: rest) d0 ds s
      = (some e, filepathJoin dstPath f.Name, ds1, s1) := by
  simp only [unzipLoop, h]

theorem unzipLoop_cons_ok (env : Env) (dstPath : String) (f : ZipFile) (rest : List ZipFile)
    (d0 : String) (ds ds1 : List Deferred) (s s1 : State)
    (h : unzipEntry env (filepathJoin dstPath f.Name) f ds s = (none, ds1, s1)) :
    unzipLoop env dstPath (f :: rest) d0 ds s
      = unzipLoop env dstPath rest (filepathJoin dstPath f.Name) ds1 s1 := by
  simp only [unzipLoop, h]

/-- What the loop may touch: only the joined paths of its entries are
written or created, no mode is changed, only closing calls are deferred, and
`dst` ends as its start value or as the joined path of an entry. -/
theorem unzipLoop_footprint (env : Env) (dstPath : String) (l : List ZipFile) :
    ∀ (d0 : String) (ds : List Deferred) (s0 : State),
    (∀ q, (∀ f ∈ l, q ≠ filepathJoin dstPath f.Name) →
      (unzipLoop env dstPath l d0 ds s0).2.2.2.fs q = s0.fs q) ∧
    (chmods (unzipLoop env dstPath l d0 ds s0).2.2.2.trace = chmods s0.trace) ∧
    (∃ new, created (unzipLoop env dstPath l d0 ds s0).2.2.2.trace = created s0.trace ++ new ∧
      ∀ p ∈ new, ∃ f ∈ l, p = filepathJoin dstPath f.Name) ∧
    (∃ cl, (unzipLoop env dstPath l d0 ds s0).2.2.1 = cl ++ ds ∧
      ∀ x ∈ cl, ∃ h, x = Deferred.close h) ∧
    ((unzipLoop env dstPath l d0 ds s0).2.1 = d0 ∨
      ∃ f ∈ l, (unzipLoop env dstPath l d0 ds s0).2.1 = filepathJoin dstPath f.Name) := by
  induction l with
  | nil =>
    intro d0 ds s0
    exact ⟨fun _ _ => rfl, rfl, ⟨[], by simp [unzipLoop], by simp⟩, ⟨[], rfl, by simp⟩,
      Or.inl rfl⟩
  | cons f rest ih =>
    intro d0 ds s0
    obtain ⟨hfs, hch, hcr, cl1, hcl1, hclose1⟩ :=
      unzipEntry_footprint env (filepathJoin dstPath f.Name) f ds s0
    cases he : unzipEntry env (filepathJoin dstPath f.Name) f ds s0 with
    | mk e rest1 =>
      obtain ⟨ds1, s1⟩ := rest1
      rw [he] at hfs hch hcr hcl1
      simp only at hfs hch hcr hcl1
      have hcr1 : ∃ new, created s1.trace = created s0.trace ++ new ∧
          ∀ p ∈ new, ∃ g ∈ f :: rest, p = filepathJoin dstPath g.Name := by
        rcases hcr with h | h
        · exact ⟨[], by simp [h], by simp⟩
        · exact ⟨[filepathJoin dstPath f.Name], h, by simp⟩
      cases e with
      | some e =>
        rw [unzipLoop_cons_err env dstPath f rest d0 ds ds1 s0 s1 e he]
        refine ⟨?_, hch, hcr1, ⟨cl1, hcl1, hclose1⟩, Or.inr ⟨f, by simp, rfl⟩⟩
        intro q hq
        exact hfs q (hq f (by simp))
      | none =>
        rw [unzipLoop_cons_ok env dstPath f rest d0 ds ds1 s0 s1 he]
        obtain ⟨ifs, ich, ⟨new2, inew, imem⟩, ⟨cl2, icl, iclose⟩, idst⟩ :=
          ih (filepathJoin dstPath f.Name) ds1 s1
        refine ⟨?_, by rw [ich, hch], ?_, ?_, ?_⟩
        · intro q hq
          rw [ifs q (fun g hg => hq g (List.mem_cons_of_mem _ hg))]
          exact hfs q (hq f (by simp))
        · obtain ⟨new1, hnew1, hmem1⟩ := hcr1
          refine ⟨new1 ++ new2, by rw [inew, hnew1, List.append_assoc], ?_⟩
          intro p hp
          rcases List.mem_append.1 hp with h | h
          · exact hmem1 p h
          · obtain ⟨g, hg, hpg⟩ := imem p h
            exact ⟨g, List.mem_cons_of_mem _ hg, hpg⟩
        · refine ⟨cl2 ++ cl1, by rw [icl, hcl1, List.append_assoc], ?_⟩
          intro x hx
          rcases List.mem_append.1 hx with h | h
          · exact iclose x h
          · exact hclose1 x h
        · rcases idst with h | ⟨g, hg, h⟩
          · exact Or.inr ⟨f, by simp, h⟩
          · exact Or.inr ⟨g, List.mem_cons_of_mem _ hg, h⟩

theorem foldl_last_path (dstPath : String) (l : List ZipFile) :
    ∀ (d0 : String) (hne : l ≠ []),
      l.foldl (fun _ f => filepathJoin dstPath f.Name) d0
        = filepathJoin dstPath (l.getLast hne).Name := by
  induction l with
  | nil => intro d0 hne; exact absurd rfl hne
  | cons f rest ih =>
    intro d0 hne
    cases rest with
    | nil => rfl
    | cons g gs =>
      rw [List.foldl_cons, ih _ (by simp)]
      simp [List.getLast_cons]

/-- A plain name is joined as one more element after those of the directory. -/
theorem pathComps_join_plain (dstPath n : String) (h : plainName n) :
    pathComps (filepathJoin dstPath n) = pathComps dstPath ++ [n.data] := by
  obtain ⟨h1, h2, h3, h4⟩ := h
  have hs : splitSep n.data = [n.data] := splitSep_of_no_sep _ h2
  rw [pathComps_join dstPath n (by rw [hs]; simpa using fun e => h4 e.symm), hs]
  simp [keptElem, h1, h3]

theorem join_plain_ne_empty (dstPath n : String) (h : plainName n) :
    filepathJoin dstPath n ≠ "" := by
  intro e
  have := pathComps_join_plain dstPath n h
  rw [e] at this
  have h0 : pathComps "" = [] := by decide
  rw [h0] at this
  simp at this

theorem join_plain_injective (dstPath n m : String) (hn : plainName n) (hm : plainName m)
    (e : filepathJoin dstPath n = filepathJoin dstPath m) : n = m := by
  have h1 := pathComps_join_plain dstPath n hn
  have h2 := pathComps_join_plain dstPath m hm
  rw [e, h2] at h1
  have := List.append_cancel_left h1
  simp only [List.cons.injEq, and_true] at this
  exact String.ext this.symm

/-- The loop on an archive of plain names that extract without error: no
error, `dst` ends on the last joined path, the bytes written are those of
the entries, each to its joined path and in the order of the archive, and
the file at the last joined path holds the bytes of the last entry. -/
theorem unzipLoop_ok (env : Env) (dstPath : String) (l : List ZipFile) :
    ∀ (d0 : String) (ds : List Deferred) (s0 : State),
    (∀ f ∈ l, plainName f.Name) →
    (∀ f ∈ l, env.createErr (filepathJoin dstPath f.Name) = none ∧ f.openErr = none ∧
      env.writeErr (filepathJoin dstPath f.Name) = none ∧ f.content.err = none) →
    (unzipLoop env dstPath l d0 ds s0).1 = none ∧
    (unzipLoop env dstPath l d0 ds s0).2.1
      = l.foldl (fun _ f => filepathJoin dstPath f.Name) d0 ∧
    (unzipLoop env dstPath l d0 ds s0).2.2.2.written
      = s0.written ++ l.map (fun f => (filepathJoin dstPath f.Name, f.content.data)) ∧
    (∀ hne : l ≠ [],
      ((unzipLoop env dstPath l d0 ds s0).2.2.2.fs
        (filepathJoin dstPath (l.getLast hne).Name)).map FileNode.data
        = some (l.getLast hne).content.data) := by
  induction l with
  | nil =>
    intro d0 ds s0 _ _
    exact ⟨rfl, rfl, by simp [unzipLoop], fun hne => absurd rfl hne⟩
  | cons f rest ih =>
    intro d0 ds s0 hplain hio
    have hpf := hplain f (by simp)
    obtain ⟨hc, ho, hw, hr⟩ := hio f (by simp)
    obtain ⟨hnone, hdata, hwr⟩ := unzipEntry_ok env (filepathJoin dstPath f.Name) f ds s0
      (join_plain_ne_empty dstPath f.Name hpf) hc ho hw hr
    cases he : unzipEntry env (filepathJoin dstPath f.Name) f ds s0 with
    | mk e rest1 =>
      obtain ⟨ds1, s1⟩ := rest1
      rw [he] at hnone hdata hwr
      simp only at hnone hdata hwr
      subst hnone
      rw [unzipLoop_cons_ok env dstPath f rest d0 ds ds1 s0 s1 he]
      obtain ⟨i1, i2, i3, i4⟩ := ih (filepathJoin dstPath f.Name) ds1 s1
        (fun g hg => hplain g (List.mem_cons_of_mem _ hg))
        (fun g hg => hio g (List.mem_cons_of_mem _ hg))
      refine ⟨i1, by rw [i2]; rfl, by rw [i3, hwr]; simp, ?_⟩
      intro hne
      cases rest with
      | nil => simpa [unzipLoop] using hdata
      | cons g gs =>
        have := i4 (by simp)
        simpa [List.getLast_cons] using this

/-- Distinct plain names are joined to distinct paths. -/
theorem joined_paths_nodup (dstPath : String) (l : List ZipFile)
    (hplain : ∀ f ∈ l, plainName f.Name) (hnd : (l.map ZipFile.Name).Nodup) :
    (l.map (fun f => filepathJoin dstPath f.Name)).Nodup := by
  have h : ((l.map ZipFile.Name).map (filepathJoin dstPath)).Nodup := by
    apply List.Nodup.map_on _ hnd
    intro x hx y hy e
    obtain ⟨f, hf, rfl⟩ := List.mem_map.1 hx
    obtain ⟨g, hg, rfl⟩ := List.mem_map.1 hy
    exact join_plain_injective dstPath f.Name g.Name (hplain f hf) (hplain g hg) e
  simpa [List.map_map] using h

theorem osChmod_some (env : Env) (p : String) (m : Nat) (s : State) (node : FileNode)
    (hc : env.chmodErr p = none) (hp : p ≠ "") (h : s.fs p = some node) :
    osChmod env p m s = { s with fs := s.fs.set p (some { data := node.data, perm := m }),
                                 trace := s.trace ++ [Event.chmod p m] } := by
  simp [osChmod, hc, hp, h]

theorem osChmod_footprint (env : Env) (p : String) (m : Nat) (s : State) :
    (∀ q, (q ≠ p ∨ p = "") → (osChmod env p m s).fs q = s.fs q) ∧
    created (osChmod env p m s).trace = created s.trace ∧
    (osChmod env p m s).written = s.written := by
  unfold osChmod
  split
  · exact ⟨fun _ _ => rfl, rfl, rfl⟩
  · split
    · exact ⟨fun _ _ => rfl, rfl, rfl⟩
    · rename_i hp
      split
      · refine ⟨?_, by simp [created_append, created], rfl⟩
        intro q hq
        rcases hq with h | h
        · simp [FS.set, h]
        · exact absurd h hp
      · exact ⟨fun _ _ => rfl, rfl, rfl⟩

/-- A name without `..` (and not rooted when joined to the empty directory)
is joined to a path inside the directory. -/
theorem inside_join (dstPath n : String) (h : localName dstPath n) :
    inside dstPath (filepathJoin dstPath n) := by
  obtain ⟨hnd, hroot⟩ := h
  refine ⟨isRooted_join dstPath n hroot, ?_, ?_⟩
  · rw [pathComps_join dstPath n hnd]
    simp
  · rw [pathComps_join dstPath n hnd]
    simp only [List.drop_left']
    intro hm
    exact hnd (List.mem_filter.1 hm).1

/-! ## Claims on extraction -/

/-- C5, as stated, fails: `os.Chmod` can be refused, and its error is
discarded.  With `/tmp/out/tool` already on disk in mode `0666` and a
refused chmod, the entry `tool` extracts without error, `unzipProduct`
returns `/tmp/out/tool` with a nil error, and the mode is still `0666`. -/
theorem unzipProduct_chmod_refused :
    (zipOpenReader refusedEnv "/tmp/out/ffmpeg.zip" staleState).1 = Except.ok toolArchive ∧
    (unzipProduct refusedEnv "/tmp/out/ffmpeg.zip" "/tmp/out" staleState).1
      = ("/tmp/out/tool", none) ∧
    (unzipProduct refusedEnv "/tmp/out/ffmpeg.zip" "/tmp/out" staleState).2.written
      = [("/tmp/out/tool", [127, 69, 76, 70])] ∧
    (unzipProduct refusedEnv "/tmp/out/ffmpeg.zip" "/tmp/out" staleState).2.fs "/tmp/out/tool"
      = some { data := [127, 69, 76, 70], perm := 0o666 } ∧
    chmods (unzipProduct refusedEnv "/tmp/out/ffmpeg.zip" "/tmp/out" staleState).2.trace = [] := by
  refine ⟨rfl, ?_⟩
  decide

/-- C5, amended: for an archive of `n ≥ 1` entries with pairwise distinct
plain file names that all extract without I/O error, and when `os.Chmod` on
the last path is not refused, `unzipProduct` returns the joined path of the
last entry with a nil error.  The joined path of an entry is the destination
followed by the entry name as one more element, and these paths are pairwise
distinct.  The bytes written are exactly those of the entries, unchanged,
each to its joined path.  The file at the returned path holds the bytes of
the last entry and has mode `0700`, in which the owner-execute bit is set,
and the only `os.Chmod` that `unzipProduct` performs is that one. -/
theorem unzipProduct_extracts (env : Env) (file dstPath : String) (s : State)
    (archive : List ZipFile) (hne : archive ≠ [])
    (hopen : (zipOpenReader env file s).1 = Except.ok archive)
    (hplain : ∀ f ∈ archive, plainName f.Name)
    (hdistinct : (archive.map ZipFile.Name).Nodup)
    (hio : ∀ f ∈ archive, env.createErr (filepathJoin dstPath f.Name) = none ∧
      f.openErr = none ∧ env.writeErr (filepathJoin dstPath f.Name) = none ∧
      f.content.err = none)
    (hchmod : env.chmodErr (filepathJoin dstPath (archive.getLast hne).Name) = none) :
    (unzipProduct env file dstPath s).1
      = (filepathJoin dstPath (archive.getLast hne).Name, none) ∧
    (∀ f ∈ archive,
      pathComps (filepathJoin dstPath f.Name) = pathComps dstPath ++ [f.Name.data]) ∧
    (archive.map (fun f => filepathJoin dstPath f.Name)).Nodup ∧
    (unzipProduct env file dstPath s).2.written
      = s.written ++ archive.map (fun f => (filepathJoin dstPath f.Name, f.content.data)) ∧
    (unzipProduct env file dstPath s).2.fs (filepathJoin dstPath (archive.getLast hne).Name)
      = some { data := (archive.getLast hne).content.data, perm := 0o700 } ∧
    Nat.testBit 0o700 6 = true ∧
    chmods (unzipProduct env file dstPath s).2.trace
      = chmods s.trace ++ [(filepathJoin dstPath (archive.getLast hne).Name, 0o700)] := by
  have hz := zipOpenReader_ok env file s archive hopen
  obtain ⟨l1, l2, l3, l4⟩ := unzipLoop_ok env dstPath archive "" []
    (s.log (Event.opened (Handle.archive file))) hplain hio
  obtain ⟨_, fch, _, ⟨cl, hcl, hclose⟩, _⟩ := unzipLoop_footprint env dstPath archive "" []
    (s.log (Event.opened (Handle.archive file)))
  rw [foldl_last_path dstPath archive "" hne] at l2
  have l5 := l4 hne
  have hmem : archive.getLast hne ∈ archive := List.getLast_mem hne
  have hlast_ne : filepathJoin dstPath (archive.getLast hne).Name ≠ "" :=
    join_plain_ne_empty dstPath _ (hplain _ hmem)
  cases hl : unzipLoop env dstPath archive "" [] (s.log (Event.opened (Handle.archive file))) with
  | mk e r1 =>
    obtain ⟨d, ds1, s1⟩ := r1
    rw [hl] at l1 l2 l3 l5 fch hcl
    simp only at l1 l2 l3 l5 fch hcl
    subst l1 l2
    rw [List.append_nil] at hcl
    subst hcl
    obtain ⟨node, hnode, hnd⟩ : ∃ node,
        s1.fs (filepathJoin dstPath (archive.getLast hne).Name) = some node ∧
        node.data = (archive.getLast hne).content.data := by
      cases hs : s1.fs (filepathJoin dstPath (archive.getLast hne).Name) with
      | none => simp [hs] at l5
      | some node => exact ⟨node, rfl, by simpa [hs] using l5⟩
    have hres : unzipProduct env file dstPath s
        = ((filepathJoin dstPath (archive.getLast hne).Name, none),
            runDeferred env ds1
              (osChmod env (filepathJoin dstPath (archive.getLast hne).Name) 0o700 s1)) := by
      simp only [unzipProduct, hz, hl, runDeferred, runDeferred1]
    obtain ⟨cfs, cch, _, cwr⟩ := runDeferred_closes env ds1 hclose
      (osChmod env (filepathJoin dstPath (archive.getLast hne).Name) 0o700 s1)
    rw [hres]
    simp only
    rw [cfs, cch, cwr, osChmod_some env _ _ s1 node hchmod hlast_ne hnode]
    refine ⟨trivial, fun f hf => pathComps_join_plain dstPath f.Name (hplain f hf),
      joined_paths_nodup dstPath archive hplain hdistinct, ?_, ?_, by decide, ?_⟩
    · simpa [State.log] using l3
    · simp [FS.set, hnd]
    · simp [chmods_append, chmods, fch, State.log]

theorem unzipProduct_extracts_witness :
    (unzipProduct (sampleEnv "linux" ok200 ok200 toolArchive) "/tmp/out/ffmpeg.zip" "/tmp/out"
        (zipState "/tmp/out/ffmpeg.zip")).1 = ("/tmp/out/tool", none) ∧
    (unzipProduct (sampleEnv "linux" ok200 ok200 toolArchive) "/tmp/out/ffmpeg.zip" "/tmp/out"
        (zipState "/tmp/out/ffmpeg.zip")).2.written = [("/tmp/out/tool", [127, 69, 76, 70])] ∧
    (unzipProduct (sampleEnv "linux" ok200 ok200 toolArchive) "/tmp/out/ffmpeg.zip" "/tmp/out"
        (zipState "/tmp/out/ffmpeg.zip")).2.fs "/tmp/out/tool"
      = some { data := [127, 69, 76, 70], perm := 0o700 } :=
  have h := unzipProduct_extracts (sampleEnv "linux" ok200 ok200 toolArchive)
    "/tmp/out/ffmpeg.zip" "/tmp/out" (zipState "/tmp/out/ffmpeg.zip") toolArchive (by decide)
    rfl (by decide) (by decide) (by decide) rfl
  ⟨h.1, h.2.2.2.1, h.2.2.2.2.1⟩

/-- C10, as stated, fails: with destination `/tmp/out` an entry named
`../evil` is created and written at `/tmp/evil`, and with the empty
destination an entry named `/etc/evil` is created at `/etc/evil`; neither
path lies inside its destination. -/
theorem unzipProduct_escapes :
    (created (unzipProduct (sampleEnv "linux" ok200 ok200 slipArchive) "/tmp/out/ffmpeg.zip"
        "/tmp/out" (zipState "/tmp/out/ffmpeg.zip")).2.trace = ["/tmp/evil"] ∧
      (unzipProduct (sampleEnv "linux" ok200 ok200 slipArchive) "/tmp/out/ffmpeg.zip"
        "/tmp/out" (zipState "/tmp/out/ffmpeg.zip")).2.fs "/tmp/evil"
        = some { data := [1], perm := 0o700 } ∧
      ¬ inside "/tmp/out" "/tmp/evil") ∧
    (created (unzipProduct (sampleEnv "linux" ok200 ok200 rootedArchive) "ffmpeg.zip"
        "" (zipState "ffmpeg.zip")).2.trace = ["/etc/evil"] ∧
      ¬ inside "" "/etc/evil") := by
  decide

/-- C10, amended: when no entry name of the archive has a `..` element (and,
for the empty destination, none is rooted), every path outside the
destination directory holds after `unzipProduct` what it held before, and
every file that `unzipProduct` creates lies inside the destination
directory. -/
theorem unzipProduct_stays_inside (env : Env) (file dstPath : String) (s : State)
    (hloc : ∀ archive, (zipOpenReader env file s).1 = Except.ok archive →
      ∀ f ∈ archive, localName dstPath f.Name) :
    (∀ p, ¬ inside dstPath p → (unzipProduct env file dstPath s).2.fs p = s.fs p) ∧
    (∃ new, created (unzipProduct env file dstPath s).2.trace = created s.trace ++ new ∧
      ∀ p ∈ new, inside dstPath p) := by
  cases hz : zipOpenReader env file s with
  | mk r s0 =>
    cases r with
    | error e =>
      have hs0 : s0 = s := by
        unfold zipOpenReader at hz
        split at hz
        · exact (congrArg Prod.snd hz).symm
        · split at hz
          · exact (congrArg Prod.snd hz).symm
          · simp at hz
      subst hs0
      have hres : unzipProduct env file dstPath s0 = (("", some e), s0) := by
        simp only [unzipProduct, hz]
      rw [hres]
      exact ⟨fun _ _ => rfl, [], by simp, by simp⟩
    | ok archive =>
      have hopen : (zipOpenReader env file s).1 = Except.ok archive := by rw [hz]
      have hloc' := hloc archive hopen
      have hz' := zipOpenReader_ok env file s archive hopen
      rw [hz] at hz'
      have hs0 : s0 = s.log (Event.opened (Handle.archive file)) := congrArg Prod.snd hz'
      obtain ⟨ffs, _, ⟨new, hnew, hmem⟩, ⟨cl, hcl, hclose⟩, hdst⟩ :=
        unzipLoop_footprint env dstPath archive "" [] s0
      have hin : ∀ p ∈ new, inside dstPath p := by
        intro p hp
        obtain ⟨f, hf, hpf⟩ := hmem p hp
        rw [hpf]
        exact inside_join dstPath f.Name (hloc' f hf)
      have hout : ∀ p, ¬ inside dstPath p → ∀ f ∈ archive, p ≠ filepathJoin dstPath f.Name := by
        intro p hp f hf e
        exact hp (e ▸ inside_join dstPath f.Name (hloc' f hf))
      have hcr0 : created s0.trace = created s.trace := by
        rw [hs0]
        simp [State.log, created_append, created]
      have hfs0 : s0.fs = s.fs := by rw [hs0]; rfl
      cases hl : unzipLoop env dstPath archive "" [] s0 with
      | mk e r1 =>
        obtain ⟨d, ds1, s1⟩ := r1
        rw [hl] at ffs hnew hcl hdst
        simp only at ffs hnew hcl hdst
        rw [List.append_nil] at hcl
        subst hcl
        cases e with
        | some e =>
          have hres : unzipProduct env file dstPath s
              = (("", some e), runDeferred env ds1 s1) := by
            simp only [unzipProduct, hz, hl]
          obtain ⟨cfs, _, ccr, _⟩ := runDeferred_closes env ds1 hclose s1
          rw [hres]
          simp only
          rw [cfs, ccr]
          refine ⟨?_, new, by rw [hnew, hcr0], hin⟩
          intro p hp
          rw [ffs p (hout p hp), hfs0]
        | none =>
          have hres : unzipProduct env file dstPath s
              = ((d, none), runDeferred env ds1 (osChmod env d 0o700 s1)) := by
            simp only [unzipProduct, hz, hl, runDeferred, runDeferred1]
          obtain ⟨cfs, _, ccr, _⟩ := runDeferred_closes env ds1 hclose (osChmod env d 0o700 s1)
          obtain ⟨mfs, mcr, _⟩ := osChmod_footprint env d 0o700 s1
          rw [hres]
          simp only
          rw [cfs, ccr, mcr]
          refine ⟨?_, new, by rw [hnew, hcr0], hin⟩
          intro p hp
          have hpd : p ≠ d ∨ d = "" := by
            rcases hdst with h | ⟨f, hf, h⟩
            · exact Or.inr h
            · exact Or.inl (h ▸ hout p hp f hf)
          rw [mfs p hpd, ffs p (hout p hp), hfs0]

theorem unzipProduct_stays_inside_witness :
    (unzipProduct (sampleEnv "linux" ok200 ok200 toolArchive) "/tmp/out/ffmpeg.zip" "/tmp/out"
        (zipState "/tmp/out/ffmpeg.zip")).2.fs "/tmp/evil" = none ∧
    ∃ new, created (unzipProduct (sampleEnv "linux" ok200 ok200 toolArchive)
        "/tmp/out/ffmpeg.zip" "/tmp/out" (zipState "/tmp/out/ffmpeg.zip")).2.trace
        = created (zipState "/tmp/out/ffmpeg.zip").trace ++ new ∧
      ∀ p ∈ new, inside "/tmp/out" p :=
  have h := unzipProduct_stays_inside (sampleEnv "linux" ok200 ok200 toolArchive)
    "/tmp/out/ffmpeg.zip" "/tmp/out" (zipState "/tmp/out/ffmpeg.zip")
    (fun archive ha f hf => by
      have e : archive = toolArchive := (Except.ok.inj ha).symm
      subst e
      rw [List.mem_singleton.1 hf]
      decide)
  ⟨h.1 "/tmp/evil" (by decide), h.2⟩

/-! ## The whole pipeline -/

/-- The end-to-end scenario: the catalog offers `http://x/ffmpeg.zip` for
`linux-64`, the artifact holds the entry `tool`.  `Download` requests the
catalog and the artifact, extracts `/tmp/out/tool` with mode `0700`, removes
`/tmp/out/ffmpeg.zip` and returns `/tmp/out/tool`. -/
theorem Download_end_to_end :
    (Download (sampleEnv "linux" ok200 ok200 toolArchive) "ffmpeg" "6.1" "/tmp/out"
      emptyState).1 = ("/tmp/out/tool", none) ∧
    requests (Download (sampleEnv "linux" ok200 ok200 toolArchive) "ffmpeg" "6.1" "/tmp/out"
      emptyState).2.trace
      = ["https://ffbinaries.com/api/v1/version/6.1", "http://x/ffmpeg.zip"] ∧
    (Download (sampleEnv "linux" ok200 ok200 toolArchive) "ffmpeg" "6.1" "/tmp/out"
      emptyState).2.fs "/tmp/out/tool" = some { data := [127, 69, 76, 70], perm := 0o700 } ∧
    (Download (sampleEnv "linux" ok200 ok200 toolArchive) "ffmpeg" "6.1" "/tmp/out"
      emptyState).2.fs "/tmp/out/ffmpeg.zip" = none := by
  decide

/-! ## Failing inputs -/

/-- C4: failing input.  The catalog answers, the artifact URL answers 404:
`downloadZip` has created `/tmp/out/ffmpeg.zip` before the request, and when
`Download` returns the file is on disk and no `os.Remove` was performed. -/
theorem Download_leaves_zip :
    emptyState.fs "/tmp/out/ffmpeg.zip" = none ∧
    (Download (sampleEnv "linux" ok200 notFound404 []) "ffmpeg" "6.1" "/tmp/out" emptyState).1
      = ("", none) ∧
    (Download (sampleEnv "linux" ok200 notFound404 []) "ffmpeg" "6.1" "/tmp/out"
      emptyState).2.fs "/tmp/out/ffmpeg.zip" = some { data := [], perm := 0o644 } ∧
    (Download (sampleEnv "linux" ok200 notFound404 []) "ffmpeg" "6.1" "/tmp/out"
      emptyState).2.trace =
      [Event.httpGet "https://ffbinaries.com/api/v1/version/6.1",
       Event.opened (Handle.body "https://ffbinaries.com/api/v1/version/6.1"),
       Event.opened (Handle.file "/tmp/out/ffmpeg.zip"),
       Event.httpGet "http://x/ffmpeg.zip",
       Event.opened (Handle.body "http://x/ffmpeg.zip"),
       Event.closed (Handle.body "http://x/ffmpeg.zip"),
       Event.closed (Handle.file "/tmp/out/ffmpeg.zip")] := by
  decide

/-- C6: failing input.  Extracting the one-entry archive `tool`: the file
and the entry reader are opened and closed, the archive reader is opened and
never closed. -/
theorem unzipProduct_leaks_archive :
    (unzipProduct (sampleEnv "linux" ok200 ok200 toolArchive) "/tmp/out/ffmpeg.zip" "/tmp/out"
      (zipState "/tmp/out/ffmpeg.zip")).2.trace =
      [Event.opened (Handle.archive "/tmp/out/ffmpeg.zip"),
       Event.opened (Handle.file "/tmp/out/tool"),
       Event.opened (Handle.entry "tool"),
       Event.chmod "/tmp/out/tool" 0o700,
       Event.closed (Handle.entry "tool"),
       Event.closed (Handle.file "/tmp/out/tool")] ∧
    Event.closed (Handle.archive "/tmp/out/ffmpeg.zip") ∉
      (unzipProduct (sampleEnv "linux" ok200 ok200 toolArchive) "/tmp/out/ffmpeg.zip" "/tmp/out"
        (zipState "/tmp/out/ffmpeg.zip")).2.trace := by
  decide

/-- C7: failing input.  An archive that opens and has no entries:
`unzipProduct` returns the empty path with a nil error, and nothing is
written or chmod-ed. -/
theorem unzipProduct_empty_archive :
    (zipOpenReader (sampleEnv "linux" ok200 ok200 []) "/tmp/out/ffmpeg.zip"
      (zipState "/tmp/out/ffmpeg.zip")).1 = Except.ok [] ∧
    (unzipProduct (sampleEnv "linux" ok200 ok200 []) "/tmp/out/ffmpeg.zip" "/tmp/out"
      (zipState "/tmp/out/ffmpeg.zip")).1 = ("", none) ∧
    (unzipProduct (sampleEnv "linux" ok200 ok200 []) "/tmp/out/ffmpeg.zip" "/tmp/out"
      (zipState "/tmp/out/ffmpeg.zip")).2.trace
      = [Event.opened (Handle.archive "/tmp/out/ffmpeg.zip")] := by
  refine ⟨rfl, ?_, ?_⟩ <;> decide

end Ffbinaries
